import Mathlib

/-!
Verification of the daily strategy-vs-benchmark recurrence engine and the
sector contribution aggregator of `KBAM/Dashboard/call.py`.

The engine (`get_strategy_portfolio_weight_comparison`, lines 3150-3630) is
embedded as a per-date step function over exact rationals.  Python dicts
become association lists with `get`-style lookup, Python `None`-able prices
become `Option ℚ`, and the iteration order of the Python `set` of stock
names (which the source never sorts) becomes an explicit `stocks` list in
the step input.  The sector aggregator (`get_daily_sector_contributions`,
lines 1732-1831) is embedded as a fold over the window's per-date row lists.
-/

/-- Lookup with default, mirroring Python `d.get(key, default)` on the
string-keyed weight dictionaries of `call.py`. -/
def lookupD : List (String × ℚ) → String → ℚ → ℚ
  | [], _, d => d
  | e :: r, k, d => if e.1 = k then e.2 else lookupD r k d

/-- Lookup for price dictionaries: absent keys and stored `None` prices both
come back as `none`, mirroring `prices.get(stock)` on a dict whose values may
be `None`. -/
def lookupOpt : List (String × Option ℚ) → String → Option ℚ
  | [], _ => none
  | e :: r, k => if e.1 = k then e.2 else lookupOpt r k

/-- Python dict assignment `m[k] = v`, modelled so that later bindings shadow
earlier ones under `lookupD`. -/
def dictSet (l : List (String × ℚ)) (k : String) (v : ℚ) : List (String × ℚ) :=
  (k, v) :: l

/-- Sum of a dictionary's values, mirroring `sum(d.values())` (dictionaries in
the model carry each key once). -/
def sumVals (l : List (String × ℚ)) : ℚ :=
  (l.map (fun e => e.2)).sum

/-- Python `s.replace(' ', '').upper()` from the name-matching code
(lines 3367, 3458 of `call.py`), as a character list. -/
def cleanChars (s : String) : List Char :=
  (s.data.filter (fun c => !(c == ' '))).map Char.toUpper

/-- Python `s.replace('US', '')` (lines 3373-3374, 3471-3472): every
occurrence of the two-character substring is removed, scanning left to
right. -/
def removeUS : List Char → List Char
  | 'U' :: 'S' :: rest => removeUS rest
  | c :: rest => c :: removeUS rest
  | [] => []

/-- Python `a.startswith(b)` on the cleaned names (line 3477): `b` is a
leading segment of `a`.  `isLeadingOf b a` means `a.startswith(b)`. -/
def isLeadingOf : List Char → List Char → Bool
  | [], _ => true
  | _, [] => false
  | a :: as, b :: bs => a == b && isLeadingOf as bs

/-- The fuzzy-name scan used by the injection step (lines 3366-3377 of
`call.py`): for each override entry in dictionary order, try cleaned equality
then equality after removing `US`; the first hit wins.  There is no
`startswith` attempt here, unlike the reporting scan. -/
def injScan : List (String × ℚ) → String → ℚ
  | [], _ => 0
  | (n, d) :: rest, s =>
    if cleanChars s = cleanChars n then d
    else if removeUS (cleanChars s) ≠ [] ∧ removeUS (cleanChars n) ≠ [] ∧
        removeUS (cleanChars s) = removeUS (cleanChars n) then d
    else injScan rest s

/-- The override delta the injection step attaches to holding `s`
(lines 3363-3377): direct dictionary lookup, then the fuzzy scan only when
the direct lookup produced `0.0` and the override dictionary is nonempty. -/
def injResolve (active : List (String × ℚ)) (s : String) : ℚ :=
  let direct := lookupD active s 0
  if direct = 0 ∧ active ≠ [] then injScan active s else direct

/-- The fuzzy-name scan used when emitting output rows (lines 3456-3479 of
`call.py`): per override entry, try exact equality, cleaned equality,
equality after removing `US`, then `startswith` containment either way. -/
def repScan : List (String × ℚ) → String → ℚ
  | [], _ => 0
  | (n, d) :: rest, s =>
    if s = n then d
    else if cleanChars s = cleanChars n then d
    else if removeUS (cleanChars s) ≠ [] ∧ removeUS (cleanChars n) ≠ [] ∧
        removeUS (cleanChars s) = removeUS (cleanChars n) then d
    else if isLeadingOf (cleanChars n) (cleanChars s) ∨
        isLeadingOf (cleanChars s) (cleanChars n) then d
    else repScan rest s

/-- The override delta the row emission attaches to holding `s`
(lines 3453-3479): direct lookup, then the reporting scan under the same
gate as `injResolve`. -/
def repResolve (active : List (String × ℚ)) (s : String) : ℚ :=
  let direct := lookupD active s 0
  if direct = 0 ∧ active ≠ [] then repScan active s else direct

/-- Input of one non-base-date step of the recurrence
(`get_strategy_portfolio_weight_comparison`, lines 3324-3625).  `stocks`
is the union set `all_stocks` of previous-strategy, benchmark and override
keys in its Python `set` iteration order, which the source never sorts. -/
structure StepInput where
  stocks : List String
  prevStrategy : List (String × ℚ)
  prevBmWeights : List (String × ℚ)
  prevPrices : List (String × Option ℚ)
  datePrices : List (String × Option ℚ)
  basePrices : List (String × Option ℚ)
  dateLocalPrices : List (String × Option ℚ)
  dateBmWeights : List (String × ℚ)
  dateActiveWeights : List (String × ℚ)
  prevBmNav : Option ℚ
  prevMpNav : Option ℚ
deriving DecidableEq

/-- One stock's organic drift (lines 3350-3359): the prior weight is scaled
by `current_price / prev_price` exactly when the previous price is truthy and
strictly positive and the current price is truthy (non-`None`, nonzero);
otherwise the prior weight is kept. -/
def drift1 (w : ℚ) (pp cp : Option ℚ) : ℚ :=
  match pp, cp with
  | some p, some c => if 0 < p ∧ c ≠ 0 then w * (c / p) else w
  | _, _ => w

/-- The drifted (`adjusted_weights`) value of stock `s` for the day
(lines 3347-3359). -/
def adjustedOf (inp : StepInput) (s : String) : ℚ :=
  drift1 (lookupD inp.prevStrategy s 0) (lookupOpt inp.prevPrices s)
    (lookupOpt inp.datePrices s)

/-- The target weight the injection step records for an overridden stock
(line 3381 of `call.py`): the drifted weight plus the resolved override
delta.  Benchmark weights are not consulted. -/
def targetUsed (inp : StepInput) (s : String) : ℚ :=
  adjustedOf inp s + injResolve inp.dateActiveWeights s

/-- `stocks_with_active_weight` (lines 3362-3386): the stocks, in `stocks`
iteration order, whose resolved override delta is strictly positive, each
with its drifted weight and its target weight. -/
def injectedStocks (inp : StepInput) : List (String × ℚ × ℚ) :=
  inp.stocks.filterMap (fun s =>
    let d := injResolve inp.dateActiveWeights s
    if 0 < d then some (s, adjustedOf inp s, adjustedOf inp s + d) else none)

/-- The names of the stocks receiving an injection. -/
def injNames (inp : StepInput) : List String :=
  (injectedStocks inp).map (fun e => e.1)

/-- `nav_old` (lines 3392-3394): the sum of the drifted weights, replaced by
`1.0` when empty or nonpositive. -/
def navOld (inp : StepInput) : ℚ :=
  let t := (inp.stocks.map (adjustedOf inp)).sum
  if t ≤ 0 then 1 else t

/-- The initial `adjusted_weights_current` dictionary (line 3399). -/
def initAmts (inp : StepInput) : List (String × ℚ) :=
  inp.stocks.map (fun s => (s, adjustedOf inp s))

/-- One iteration of the injection loop (lines 3401-3418).  State:
`(nav_current, adjusted_weights_current, strategy_weights)`.  Entry:
`(stock, drifted weight, target weight)`.  When `1 - target > 0` the
exact-targeting amount is injected and the NAV grows; otherwise the stock is
assigned its current drifted amount and nothing else happens. -/
def injStep (st : ℚ × List (String × ℚ) × List (String × ℚ))
    (e : String × ℚ × ℚ) : ℚ × List (String × ℚ) × List (String × ℚ) :=
  let a := lookupD st.2.1 e.1 0
  if 0 < 1 - e.2.2 then
    let x := (e.2.2 * st.1 - a) / (1 - e.2.2)
    (st.1 + x, dictSet st.2.1 e.1 (a + x), dictSet st.2.2 e.1 e.2.2)
  else
    (st.1, st.2.1, dictSet st.2.2 e.1 a)

/-- The full injection loop over `stocks_with_active_weight` in its
iteration order. -/
def injRun (inp : StepInput) : ℚ × List (String × ℚ) × List (String × ℚ) :=
  (injectedStocks inp).foldl injStep (navOld inp, initAmts inp, [])

/-- `nav_current` after all injections (line 3411 updates). -/
def navFinal (inp : StepInput) : ℚ := (injRun inp).1

/-- The `strategy_weights` entries written by the injection loop. -/
def asgFinal (inp : StepInput) : List (String × ℚ) := (injRun inp).2.2

/-- The emitted strategy weight of stock `s` (lines 3388-3429): if no stock
has a positive override the drifted weight is used directly; an injected
stock takes its value from the injection loop; any other stock is diluted by
the final NAV when that NAV is positive. -/
def stepWeight (inp : StepInput) (s : String) : ℚ :=
  if injectedStocks inp = [] then adjustedOf inp s
  else if s ∈ injNames inp then lookupD (asgFinal inp) s 0
  else if 0 < navFinal inp then adjustedOf inp s / navFinal inp
  else adjustedOf inp s

/-- The `active_weight` field written to the output row (lines 3453-3494):
the reporting-site resolution, floored to `0.0` unless strictly positive. -/
def rowActive (inp : StepInput) (s : String) : ℚ :=
  let a := repResolve inp.dateActiveWeights s
  if 0 < a then a else 0

/-- `stock_return` in percent (lines 3484-3486). -/
def stockReturnPct (inp : StepInput) (s : String) : ℚ :=
  match lookupOpt inp.basePrices s, lookupOpt inp.datePrices s with
  | some b, some d => if 0 < b ∧ d ≠ 0 then (d / b - 1) * 100 else 0
  | _, _ => 0

/-- `bm_nav_base` for the day (lines 3498-3500). -/
def bmNavOfDay (inp : StepInput) : ℚ :=
  let t := sumVals inp.dateBmWeights
  if 0 < t then t else 1

/-- The per-row `mp_nav` (lines 3514-3515). -/
def mpNavOfDay (inp : StepInput) : ℚ :=
  bmNavOfDay inp + bmNavOfDay inp * sumVals inp.dateActiveWeights

/-- `sum(strategy_weights.values())` over the day's stock set. -/
def strategySum (inp : StepInput) : ℚ :=
  (inp.stocks.map (stepWeight inp)).sum

/-- `mp_amount` of one row on a non-base date (lines 3511-3528). -/
def mpAmountOf (inp : StepInput) (s : String) : ℚ :=
  let w := stepWeight inp s
  if 0 < w then
    if 0 < strategySum inp ∧ |strategySum inp - mpNavOfDay inp| < 1 / 100 then w
    else mpNavOfDay inp * w
  else 0

/-- The percent-to-fraction conversion used on the emitted contribution
fields (lines 3549-3552): `x / 100 if x != 0 else 0.0`. -/
def scaled (x : ℚ) : ℚ := if x = 0 then 0 else x / 100

/-- One emitted per-stock result row on a non-base date: exactly the fields
appended to `results` (lines 3536-3553), minus the constant date string. -/
structure OutRow where
  stock : String
  price : Option ℚ
  localPrice : Option ℚ
  bmWeight : ℚ
  activeWeight : ℚ
  strategyWeight : ℚ
  weightDiff : ℚ
  bmAmount : ℚ
  mpAmount : ℚ
  absoluteActiveAmount : ℚ
  absoluteActivePct : ℚ
  baseReturn : ℚ
  bmContribution : ℚ
  strategyContribution : ℚ
  excessContribution : ℚ
deriving DecidableEq

/-- The output row of stock `s` (lines 3447-3553, non-base branch). -/
def rowFor (inp : StepInput) (s : String) : OutRow :=
  let bmW := lookupD inp.dateBmWeights s 0
  let sw := stepWeight inp s
  let ret := stockReturnPct inp s
  let bmNav := bmNavOfDay inp
  let bmAmt := bmNav * bmW
  let mpAmt := mpAmountOf inp s
  { stock := s
    price := lookupOpt inp.datePrices s
    localPrice := lookupOpt inp.dateLocalPrices s
    bmWeight := bmW
    activeWeight := rowActive inp s
    strategyWeight := sw
    weightDiff := sw - bmW
    bmAmount := bmAmt
    mpAmount := mpAmt
    absoluteActiveAmount := mpAmt - bmAmt
    absoluteActivePct := if 0 < bmNav then (mpAmt - bmAmt) / bmNav else 0
    baseReturn := scaled ret
    bmContribution := scaled (ret * bmW)
    strategyContribution := scaled (ret * sw)
    excessContribution := scaled (ret * sw - ret * bmW) }

/-- All result rows of the date, over the day's stock set
(lines 3443-3445: strategy keys united with benchmark keys, which the
construction makes equal to `all_stocks`). -/
def stepRows (inp : StepInput) : List OutRow :=
  inp.stocks.map (rowFor inp)

/-- A benchmark- or strategy-weighted daily return
(lines 3575-3589): sum of `(price_today/price_yesterday - 1) * weight` over
the given weight dictionary, skipping entries without a truthy positive
previous price and truthy current price. -/
def dailyReturnOver (weights : List (String × ℚ))
    (prevP dateP : List (String × Option ℚ)) : ℚ :=
  (weights.map (fun e =>
    match lookupOpt prevP e.1, lookupOpt dateP e.1 with
    | some p, some c => if 0 < p ∧ c ≠ 0 then (c / p - 1) * e.2 else 0
    | _, _ => 0)).sum

/-- The per-date summary appended to `daily_weight_summary`
(lines 3555-3625, non-base branch), minus the constant date string. -/
structure OutSummary where
  bmWeightSum : ℚ
  strategyWeightSum : ℚ
  activeWeightSum : ℚ
  weightSumDiff : ℚ
  bmNav : ℚ
  mpNav : ℚ
  navDiff : ℚ
deriving DecidableEq

/-- The summary of the date (lines 3555-3625, non-base branch). -/
def summaryFor (inp : StepInput) : OutSummary :=
  let bmSum := sumVals inp.dateBmWeights
  let stratSum := strategySum inp
  let actSum := sumVals inp.dateActiveWeights
  let bmRet := dailyReturnOver inp.prevBmWeights inp.prevPrices inp.datePrices
  let mpRet := dailyReturnOver inp.prevStrategy inp.prevPrices inp.datePrices
  let bmNav :=
    match inp.prevBmNav with
    | some v => if 0 < v then v * (1 + bmRet) else if 0 < bmSum then bmSum else 1
    | none => if 0 < bmSum then bmSum else 1
  let mpNav :=
    match inp.prevMpNav with
    | some v => if 0 < v then v * (1 + mpRet) else bmNav + bmNav * actSum
    | none => bmNav + bmNav * actSum
  { bmWeightSum := bmSum
    strategyWeightSum := stratSum
    activeWeightSum := actSum
    weightSumDiff := stratSum - bmSum
    bmNav := bmNav
    mpNav := mpNav
    navDiff := mpNav - bmNav }

/-- The state carried into the next date (lines 3431-3434, 3610-3614). -/
structure Carried where
  prevStrategy : List (String × ℚ)
  prevBmWeights : List (String × ℚ)
  prevPrices : List (String × Option ℚ)
  prevBmNav : Option ℚ
  prevMpNav : Option ℚ
deriving DecidableEq

/-- The carried state produced by the date. -/
def carriedFor (inp : StepInput) : Carried :=
  { prevStrategy := inp.stocks.map (fun s => (s, stepWeight inp s))
    prevBmWeights := inp.dateBmWeights
    prevPrices := inp.datePrices
    prevBmNav := some (summaryFor inp).bmNav
    prevMpNav := some (summaryFor inp).mpNav }

/-- Everything one non-base date makes observable downstream: the result
rows, the summary row, and the state the next date starts from. -/
def stepOutput (inp : StepInput) : List OutRow × OutSummary × Carried :=
  (stepRows inp, summaryFor inp, carriedFor inp)

/-- Whether the date hit the rejected-override branch of line 3416: some
stock with a positive resolved delta has `1 - target ≤ 0`. -/
def hasInvalidTarget (inp : StepInput) : Bool :=
  (injectedStocks inp).any (fun e => !(decide (0 < 1 - e.2.2)))

/-- Base-date strategy weight (lines 3312-3319): plain addition of the
benchmark weight and the override delta. -/
def baseStrategyWeight (bm active : List (String × ℚ)) (s : String) : ℚ :=
  lookupD bm s 0 + lookupD active s 0

/-- Base-date `bm_nav_base` (lines 3563-3564). -/
def baseBmNav (bm : List (String × ℚ)) : ℚ :=
  let t := sumVals bm
  if 0 < t then t else 1

/-- Base-date `mp_nav` (lines 3565-3566). -/
def baseMpNav (bm active : List (String × ℚ)) : ℚ :=
  baseBmNav bm + baseBmNav bm * sumVals active

/-- The exact-targeting injection amount (line 3407 of `call.py`):
`x = (target * nav_current - adjusted_weight) / (1 - target)`. -/
def additionalAmount (target navCurrent adjusted : ℚ) : ℚ :=
  (target * navCurrent - adjusted) / (1 - target)

/-- One row of the per-date performance data consumed by
`get_daily_sector_contributions`: stock name, sector (`gics_name`), weight
and price, the latter two possibly missing (`NaN`). -/
structure SRow where
  stock : String
  sector : String
  weight : Option ℚ
  price : Option ℚ
deriving DecidableEq

/-- The validity filter applied to each date's rows (lines 1748, 1758, 1778
of `call.py`): price present and strictly positive, weight present. -/
def validRow (r : SRow) : Bool :=
  (match r.price with
   | some p => decide (0 < p)
   | none => false) && r.weight.isSome

/-- The inner merge of the previous date's rows with the current date's rows
on the stock name (lines 1793-1797). -/
def joinedPairs (pd cur : List SRow) : List (SRow × SRow) :=
  pd.flatMap (fun pr =>
    cur.filterMap (fun cr => if cr.stock = pr.stock then some (pr, cr) else none))

/-- `ret_contribution` of one merged pair (lines 1801-1804):
`((current - prev) / prev) * 100 * prev_weight`. -/
def pairContribution (pr cr : SRow) : ℚ :=
  ((cr.price.getD 0 - pr.price.getD 0) / pr.price.getD 0) * 100 * pr.weight.getD 0

/-- The day's contribution of sector `g`: the groupby-sum of
`ret_contribution` over the merged pairs whose previous row is in `g`
(line 1807). -/
def dailyOf (pd cur : List SRow) (g : String) : ℚ :=
  (((joinedPairs pd cur).filter (fun e => decide (e.1.sector = g))).map
    (fun e => pairContribution e.1 e.2)).sum

/-- Strict codepoint order on strings, matching the sort pandas `groupby`
applies to its keys. -/
def charListLt : List Char → List Char → Bool
  | [], [] => false
  | [], _ :: _ => true
  | _ :: _, [] => false
  | a :: as, b :: bs => if a = b then charListLt as bs else decide (a.toNat < b.toNat)

/-- Insert into a sorted list of sector names. -/
def insertSorted (a : String) : List String → List String
  | [] => [a]
  | b :: bs => if charListLt a.data b.data then a :: b :: bs else b :: insertSorted a bs

/-- Insert without duplicating. -/
def sortedInsertUnique (a : String) (l : List String) : List String :=
  if a ∈ l then l else insertSorted a l

/-- The sorted distinct sector keys of the merged pairs, matching the key
order of the pandas `groupby` dict (line 1807). -/
def sectorKeys (pairs : List (SRow × SRow)) : List String :=
  pairs.foldr (fun e acc => sortedInsertUnique e.1.sector acc) []

/-- The distinct sectors of a date's rows in order of appearance, matching
`current_date_data['gics_name'].unique()` (lines 1752, 1766). -/
def seenInsert (a : String) (l : List String) : List String :=
  if a ∈ l then l else l ++ [a]

/-- Distinct sectors of a row list, appearance order. -/
def rowSectors (rows : List SRow) : List String :=
  rows.foldl (fun acc r => seenInsert r.sector acc) []

/-- One emitted sector contribution row (lines 1818-1823), minus the
constant date value: sector, daily contribution, cumulative contribution. -/
structure ContribRow where
  sector : String
  daily : ℚ
  cumulative : ℚ
deriving DecidableEq

/-- The date loop of `get_daily_sector_contributions` after the base date
(lines 1756-1825).  State: the cumulative-contribution dictionary and the
previous date's (already filtered) rows, `none` while no date has been seen.
An empty current date skips emission and leaves empty previous data; a first
date with no seen predecessor emits zero rows; an empty previous date skips
emission; otherwise the merged contributions are emitted per sector with the
running sums updated. -/
def sectorFold : List (String × ℚ) → Option (List SRow) → List (List SRow) →
    List ContribRow
  | _, _, [] => []
  | cum, none, cur :: rest =>
    if cur.filter validRow = [] then sectorFold cum (some []) rest
    else
      ((rowSectors (cur.filter validRow)).map (fun g => ⟨g, 0, 0⟩)) ++
        sectorFold ((rowSectors (cur.filter validRow)).foldl
          (fun m g => dictSet m g 0) cum) (some (cur.filter validRow)) rest
  | cum, some pd, cur :: rest =>
    if cur.filter validRow = [] then sectorFold cum (some []) rest
    else if pd = [] then sectorFold cum (some (cur.filter validRow)) rest
    else
      ((sectorKeys (joinedPairs pd (cur.filter validRow))).map (fun g =>
        ⟨g, dailyOf pd (cur.filter validRow) g,
          lookupD cum g 0 + dailyOf pd (cur.filter validRow) g⟩)) ++
        sectorFold ((sectorKeys (joinedPairs pd (cur.filter validRow))).foldl
          (fun m g => dictSet m g (lookupD cum g 0 + dailyOf pd (cur.filter validRow) g)) cum)
          (some (cur.filter validRow)) rest

/-- The whole windowed computation (lines 1736-1831): `base` is the start
date's row list when the start date occurs in the data (`none` otherwise),
`rest` the later dates of the window in ascending order.  The base date only
initialises the running sums to zero (lines 1745-1755) and emits nothing. -/
def runSectors (base : Option (List SRow)) (rest : List (List SRow)) :
    List ContribRow :=
  match base with
  | none => sectorFold [] none rest
  | some b =>
    if b.filter validRow = [] then sectorFold [] none rest
    else sectorFold ((rowSectors (b.filter validRow)).foldl
      (fun m g => dictSet m g 0) []) (some (b.filter validRow)) rest

/-- The sum of the emitted daily contributions of sector `g` in a row
list. -/
def sectorDailySum (rows : List ContribRow) (g : String) : ℚ :=
  ((rows.filter (fun r => decide (r.sector = g))).map (fun r => r.daily)).sum

/-- Modelled from the spec: the Identifier Reconciler contract
`resolve(override_id, candidate_ids) → matched_id | none` of section 4.1,
with its four steps tried in order over all candidates, first match wins:
exact equality; case-insensitive whitespace-stripped equality; equality
after stripping a trailing `US`/`KS` country token from both sides; prefix
containment of either normalized string in the other.  This definition
follows the spec's words; the source's matching is `injResolve` and
`repResolve`. -/
def upperTokAux : List Char → List Char → List (List Char)
  | [], cur => if cur = [] then [] else [cur]
  | c :: rest, cur =>
    if c = ' ' then
      (if cur = [] then upperTokAux rest [] else cur :: upperTokAux rest [])
    else upperTokAux rest (cur ++ [Char.toUpper c])

/-- Modelled from the spec: the uppercased whitespace-separated tokens of an
identifier. -/
def upperToks (s : String) : List (List Char) :=
  upperTokAux s.data []

/-- Modelled from the spec: the identifier with a trailing `US` or `KS`
token stripped, as one normalized character list. -/
def stripTrailingTok (s : String) : List Char :=
  let toks := upperToks s
  let kept :=
    match toks.getLast? with
    | some t => if t = ['U', 'S'] ∨ t = ['K', 'S'] then toks.dropLast else toks
    | none => toks
  kept.flatten

/-- Modelled from the spec: the Identifier Reconciler's four steps in order,
each scanning all candidates, first match wins. -/
def resolveSpec (oid : String) (cands : List String) : Option String :=
  match cands.find? (fun c => decide (c = oid)) with
  | some c => some c
  | none =>
    match cands.find? (fun c => decide (cleanChars c = cleanChars oid)) with
    | some c => some c
    | none =>
      match cands.find? (fun c => decide (stripTrailingTok c = stripTrailingTok oid)) with
      | some c => some c
      | none =>
        cands.find? (fun c =>
          isLeadingOf (cleanChars c) (cleanChars oid) ||
            isLeadingOf (cleanChars oid) (cleanChars c))

lemma lookupD_dictSet (m : List (String × ℚ)) (k : String) (v : ℚ) (g : String)
    (d : ℚ) : lookupD (dictSet m k v) g d = if k = g then v else lookupD m g d := by
  simp [dictSet, lookupD]

lemma lookupD_map_self (f : String → ℚ) :
    ∀ (l : List String) (s : String), s ∈ l →
      lookupD (l.map (fun x => (x, f x))) s 0 = f s := by
  intro l
  induction l with
  | nil => intro s hs; cases hs
  | cons a r ih =>
    intro s hs
    by_cases has : a = s
    · subst has; simp [lookupD]
    · rcases List.mem_cons.mp hs with h | h
      · exact absurd h.symm has
      · simp only [List.map_cons, lookupD, if_neg has]
        exact ih s h

lemma namesAux (q : String → ℚ) (h : String → ℚ × ℚ) :
    ∀ l : List String,
      ((l.filterMap (fun s => if 0 < q s then some (s, h s) else none)).map
        (fun e => e.1)) = l.filter (fun s => decide (0 < q s)) := by
  intro l
  induction l with
  | nil => rfl
  | cons a r ih =>
    by_cases hq : 0 < q a
    · simp [List.filterMap_cons, hq, List.filter_cons, ih]
    · simp [List.filterMap_cons, hq, List.filter_cons, ih]

lemma injNames_filter (inp : StepInput) :
    injNames inp =
      inp.stocks.filter (fun s => decide (0 < injResolve inp.dateActiveWeights s)) := by
  have := namesAux (fun s => injResolve inp.dateActiveWeights s)
    (fun s => (adjustedOf inp s, adjustedOf inp s + injResolve inp.dateActiveWeights s))
    inp.stocks
  simpa [injNames, injectedStocks] using this

lemma mem_injectedStocks (inp : StepInput) (s : String) (a t : ℚ) :
    (s, a, t) ∈ injectedStocks inp ↔
      s ∈ inp.stocks ∧ 0 < injResolve inp.dateActiveWeights s ∧
        a = adjustedOf inp s ∧ t = targetUsed inp s := by
  unfold injectedStocks
  rw [List.mem_filterMap]
  constructor
  · rintro ⟨x, hx, hfx⟩
    by_cases hq : 0 < injResolve inp.dateActiveWeights x
    · simp only [hq, if_pos, Option.some.injEq, Prod.mk.injEq] at hfx
      obtain ⟨h1, h2, h3⟩ := hfx
      subst h1
      exact ⟨hx, hq, h2.symm, by rw [← h3, targetUsed]⟩
    · simp [hq] at hfx
  · rintro ⟨h1, h2, h3, h4⟩
    refine ⟨s, h1, ?_⟩
    simp only [h2, if_pos]
    subst h3
    rw [h4, targetUsed]

lemma fold_asg_not_mem :
    ∀ (es : List (String × ℚ × ℚ)) (st : ℚ × List (String × ℚ) × List (String × ℚ))
      (s : String), (∀ e ∈ es, e.1 ≠ s) →
      lookupD (es.foldl injStep st).2.2 s 0 = lookupD st.2.2 s 0 := by
  intro es
  induction es with
  | nil => intro st s _; rfl
  | cons f r ih =>
    intro st s hne
    rw [List.foldl_cons, ih _ s (fun e he => hne e (List.mem_cons_of_mem _ he))]
    have hf : f.1 ≠ s := hne f (List.mem_cons_self _ _)
    by_cases hc : 0 < 1 - f.2.2 <;> simp [injStep, hc, lookupD_dictSet, hf]

lemma fold_asg_mem :
    ∀ (es : List (String × ℚ × ℚ)) (st : ℚ × List (String × ℚ) × List (String × ℚ)),
      (es.map (fun e => e.1)).Nodup →
      (∀ e ∈ es, lookupD st.2.1 e.1 0 = e.2.1) →
      ∀ e ∈ es, lookupD (es.foldl injStep st).2.2 e.1 0 =
        if 0 < 1 - e.2.2 then e.2.2 else e.2.1 := by
  intro es
  induction es with
  | nil => intro st _ _ e he; cases he
  | cons f r ih =>
    intro st hnd hamt e he
    have hnd' : (f.1 ∉ r.map (fun y => y.1)) ∧ (r.map (fun y => y.1)).Nodup := by
      rw [List.map_cons] at hnd
      exact List.nodup_cons.mp hnd
    rw [List.foldl_cons]
    rcases List.mem_cons.mp he with rfl | hr
    · have hne : ∀ x ∈ r, x.1 ≠ e.1 := by
        intro x hx hx1
        exact hnd'.1 (hx1 ▸ List.mem_map_of_mem _ hx)
      rw [fold_asg_not_mem r _ e.1 hne]
      have ha := hamt e (List.mem_cons_self _ _)
      by_cases hc : 0 < 1 - e.2.2 <;> simp [injStep, hc, lookupD_dictSet, ha]
    · refine ih (injStep st f) hnd'.2 ?_ e hr
      intro x hx
      have hxf : f.1 ≠ x.1 := by
        intro heq
        exact hnd'.1 (heq ▸ List.mem_map_of_mem _ hx)
      have hx0 := hamt x (List.mem_cons_of_mem _ hx)
      by_cases hc : 0 < 1 - f.2.2 <;>
        simp [injStep, hc, lookupD_dictSet, hxf, hx0]

lemma stepWeight_injected (inp : StepInput) (s : String)
    (hnd : inp.stocks.Nodup) (hmem : s ∈ inp.stocks)
    (hpos : 0 < injResolve inp.dateActiveWeights s) :
    stepWeight inp s =
      if 0 < 1 - targetUsed inp s then targetUsed inp s else adjustedOf inp s := by
  have hin : (s, adjustedOf inp s, targetUsed inp s) ∈ injectedStocks inp :=
    (mem_injectedStocks inp s _ _).mpr ⟨hmem, hpos, rfl, rfl⟩
  have hne : injectedStocks inp ≠ [] := by
    intro h; rw [h] at hin; cases hin
  have hnames : s ∈ injNames inp := by
    rw [injNames_filter]
    exact List.mem_filter.mpr ⟨hmem, by simpa using hpos⟩
  have hndn : ((injectedStocks inp).map (fun e => e.1)).Nodup := by
    have : (injNames inp).Nodup := by
      rw [injNames_filter]; exact hnd.filter _
    simpa [injNames] using this
  have hamts : ∀ e ∈ injectedStocks inp, lookupD (initAmts inp) e.1 0 = e.2.1 := by
    intro e he
    obtain ⟨s0, a0, t0⟩ := e
    obtain ⟨h1, _, h3, _⟩ := (mem_injectedStocks inp s0 a0 t0).mp he
    rw [initAmts, lookupD_map_self _ _ _ h1, h3]
  have hmain := fold_asg_mem (injectedStocks inp) (navOld inp, initAmts inp, [])
    hndn hamts (s, adjustedOf inp s, targetUsed inp s) hin
  simp only [stepWeight, if_neg hne, if_pos hnames]
  simpa [injRun, asgFinal] using hmain

lemma stepWeight_not_injected (inp : StepInput) (s : String)
    (h : ¬ 0 < injResolve inp.dateActiveWeights s) :
    s ∉ injNames inp ∧
      stepWeight inp s =
        (if injectedStocks inp = [] then adjustedOf inp s
         else if 0 < navFinal inp then adjustedOf inp s / navFinal inp
         else adjustedOf inp s) := by
  have hn : s ∉ injNames inp := by
    rw [injNames_filter]
    intro hmem
    have := (List.mem_filter.mp hmem).2
    simp at this
    exact h this
  refine ⟨hn, ?_⟩
  by_cases he : injectedStocks inp = []
  · simp [stepWeight, he]
  · simp [stepWeight, he, hn]

/-- C1 counterexample: the exact-targeting postcondition fails, as stated,
at `target = 1/2`, `nav_current = 1`, `adjusted_weight = 1`, all of which
satisfy the claim's hypotheses: the injected amount is `-1`, the
post-injection NAV is `0`, and the post-injection share is `0`, not the
target. -/
theorem C1_counterexample :
    0 < (1 : ℚ) / 2 ∧ (1 : ℚ) / 2 < 1 ∧ (0 : ℚ) < 1 ∧ (0 : ℚ) ≤ 1 ∧
      (1 + additionalAmount (1 / 2) 1 1) / (1 + additionalAmount (1 / 2) 1 1) ≠
        1 / 2 := by
  norm_num [additionalAmount]

/-- C1 (amended): for any target strictly between 0 and 1, strictly positive
current NAV, and nonnegative adjusted weight different from the current NAV,
the injected amount `x = (target * nav - adjusted) / (1 - target)` makes the
post-injection share `(adjusted + x) / (nav + x)` exactly the target. -/
theorem C1_theorem (t N a : ℚ) (h1 : 0 < t) (h2 : t < 1) (h3 : 0 < N)
    (h4 : 0 ≤ a) (h5 : a ≠ N) :
    (a + additionalAmount t N a) / (N + additionalAmount t N a) = t := by
  have ht : (1 : ℚ) - t ≠ 0 := by linarith
  have hNa : N - a ≠ 0 := sub_ne_zero.mpr (Ne.symm h5)
  have hden : N + additionalAmount t N a = (N - a) / (1 - t) := by
    rw [additionalAmount]
    field_simp
    ring
  have hnum : a + additionalAmount t N a = t * (N - a) / (1 - t) := by
    rw [additionalAmount]
    field_simp
    ring
  have hd2 : (N - a) / (1 - t) ≠ 0 := div_ne_zero hNa ht
  rw [hnum, hden, div_eq_iff hd2]
  ring

/-- C1 witness: the amended theorem applied at `target = 1/2`, `nav = 1`,
`adjusted = 1/4`. -/
theorem C1_witness :
    0 < (1 : ℚ) / 2 ∧ (1 : ℚ) / 2 < 1 ∧ (0 : ℚ) < 1 ∧ (0 : ℚ) ≤ 1 / 4 ∧
      ((1 : ℚ) / 4 ≠ 1) ∧
      (1 / 4 + additionalAmount (1 / 2) 1 (1 / 4)) /
          (1 + additionalAmount (1 / 2) 1 (1 / 4)) = 1 / 2 :=
  ⟨by norm_num, by norm_num, by norm_num, by norm_num, by norm_num,
    C1_theorem (1 / 2) 1 (1 / 4) (by norm_num) (by norm_num) (by norm_num)
      (by norm_num) (by norm_num)⟩

/-- C5: at the base date the strategy weight is the plain sum of the
benchmark weight and the override delta for every instrument, the strategy
NAV is the benchmark NAV scaled by one plus the summed deltas, and in the
concrete scenario with base weights X: 0.10, Y: 0.90 and a +0.01 override on
X the strategy weight of X is 0.11 and the strategy NAV is 1.01 times the
benchmark NAV. -/
theorem C5_theorem :
    (∀ (bm active : List (String × ℚ)) (s : String),
      baseStrategyWeight bm active s = lookupD bm s 0 + lookupD active s 0) ∧
    (∀ bm active : List (String × ℚ),
      baseMpNav bm active = baseBmNav bm * (1 + sumVals active)) ∧
    baseStrategyWeight [("X", 1 / 10), ("Y", 9 / 10)] [("X", 1 / 100)] "X" =
      11 / 100 ∧
    baseBmNav [("X", 1 / 10), ("Y", 9 / 10)] = 1 ∧
    baseMpNav [("X", 1 / 10), ("Y", 9 / 10)] [("X", 1 / 100)] =
      baseBmNav [("X", 1 / 10), ("Y", 9 / 10)] * (101 / 100) := by
  refine ⟨fun bm active s => rfl, fun bm active => by rw [baseMpNav]; ring,
    ?_, ?_, ?_⟩ <;>
    norm_num +decide [baseStrategyWeight, baseBmNav, baseMpNav, lookupD, sumVals]

/-- Concrete non-base date for C2: flat prices, previous strategy weight of
`A` equal to `1/2`, today's benchmark weight of `A` equal to `3/10`, and a
`+1/10` override on `A`. -/
def cexC2 : StepInput :=
  { stocks := ["A", "B"]
    prevStrategy := [("A", 1 / 2), ("B", 1 / 2)]
    prevBmWeights := [("A", 3 / 10), ("B", 7 / 10)]
    prevPrices := [("A", some 1), ("B", some 1)]
    datePrices := [("A", some 1), ("B", some 1)]
    basePrices := [("A", some 1), ("B", some 1)]
    dateLocalPrices := []
    dateBmWeights := [("A", 3 / 10), ("B", 7 / 10)]
    dateActiveWeights := [("A", 1 / 10)]
    prevBmNav := some 1
    prevMpNav := some 1 }

/-- C2 counterexample: the injection target the engine uses for `A` is the
drifted strategy weight plus the delta, `1/2 + 1/10 = 3/5`, not today's
benchmark weight plus the delta, `3/10 + 1/10 = 2/5`; the emitted weight
confirms the engine drives `A` to `3/5`. -/
theorem C2_counterexample :
    targetUsed cexC2 "A" = 3 / 5 ∧
    lookupD cexC2.dateBmWeights "A" 0 + injResolve cexC2.dateActiveWeights "A" =
      2 / 5 ∧
    targetUsed cexC2 "A" ≠
      lookupD cexC2.dateBmWeights "A" 0 +
        injResolve cexC2.dateActiveWeights "A" ∧
    stepWeight cexC2 "A" = 3 / 5 := by
  refine ⟨?_, ?_, ?_, ?_⟩ <;>
    norm_num +decide [cexC2, targetUsed, stepWeight, navFinal, asgFinal, injRun,
      injectedStocks, injResolve, injScan, injNames, lookupD, lookupOpt,
      cleanChars, removeUS, adjustedOf, drift1, List.filterMap, navOld,
      initAmts, injStep, dictSet]

/-- C2 (amended): on a non-base date the injection target of an overridden
instrument is its drifted (adjusted) strategy weight plus the resolved
override delta — today's benchmark weight is not consulted — and when that
target is below 1 the emitted weight equals it exactly. -/
theorem C2_theorem (inp : StepInput) (s : String) (hnd : inp.stocks.Nodup)
    (hmem : s ∈ inp.stocks) (hpos : 0 < injResolve inp.dateActiveWeights s)
    (hv : 0 < 1 - targetUsed inp s) :
    targetUsed inp s = adjustedOf inp s + injResolve inp.dateActiveWeights s ∧
      stepWeight inp s = targetUsed inp s :=
  ⟨rfl, by rw [stepWeight_injected inp s hnd hmem hpos, if_pos hv]⟩

/-- C2 witness: the amended theorem applied to the concrete date `cexC2`. -/
theorem C2_witness :
    cexC2.stocks.Nodup ∧ "A" ∈ cexC2.stocks ∧
      0 < injResolve cexC2.dateActiveWeights "A" ∧
      0 < 1 - targetUsed cexC2 "A" ∧ stepWeight cexC2 "A" = targetUsed cexC2 "A" := by
  have h1 : cexC2.stocks.Nodup := by decide
  have h2 : "A" ∈ cexC2.stocks := by decide
  have h3 : 0 < injResolve cexC2.dateActiveWeights "A" := by
    norm_num +decide [cexC2, injResolve, injScan, lookupD, cleanChars, removeUS]
  have h4 : 0 < 1 - targetUsed cexC2 "A" := by
    norm_num +decide [cexC2, targetUsed, injResolve, injScan, lookupD, cleanChars,
      removeUS, adjustedOf, drift1, lookupOpt]
  exact ⟨h1, h2, h3, h4, (C2_theorem cexC2 "A" h1 h2 h3 h4).2⟩

/-- Concrete date with a rejected override for C3: previous strategy weights
`A: 3/10, B: 7/10`, flat prices, override `+3/10` on `B`, so `B`'s target is
`7/10 + 3/10 = 1` and the injection is skipped. -/
def cexC3R : StepInput :=
  { stocks := ["A", "B"]
    prevStrategy := [("A", 3 / 10), ("B", 7 / 10)]
    prevBmWeights := [("A", 1 / 2), ("B", 1 / 2)]
    prevPrices := [("A", some 1), ("B", some 1)]
    datePrices := [("A", some 1), ("B", some 1)]
    basePrices := [("A", some 1), ("B", some 1)]
    dateLocalPrices := []
    dateBmWeights := [("A", 1 / 2), ("B", 1 / 2)]
    dateActiveWeights := [("B", 3 / 10)]
    prevBmNav := some 1
    prevMpNav := some 1 }

/-- Concrete date with a successfully applied override for C3: previous
strategy weights `A: 6/10, B: 4/10`, flat prices, the same `+3/10` override
on `B`; `B`'s target `7/10` is reached by injecting `1`, and `A` is diluted
to `3/10`. -/
def cexC3S : StepInput :=
  { stocks := ["A", "B"]
    prevStrategy := [("A", 6 / 10), ("B", 4 / 10)]
    prevBmWeights := [("A", 1 / 2), ("B", 1 / 2)]
    prevPrices := [("A", some 1), ("B", some 1)]
    datePrices := [("A", some 1), ("B", some 1)]
    basePrices := [("A", some 1), ("B", some 1)]
    dateLocalPrices := []
    dateBmWeights := [("A", 1 / 2), ("B", 1 / 2)]
    dateActiveWeights := [("B", 3 / 10)]
    prevBmNav := some 1
    prevMpNav := some 1 }

/-- C3 counterexample: the date `cexC3R` rejects an override whose implied
target is `1`, the date `cexC3S` rejects nothing, yet the two dates emit
exactly the same rows, the same summary and the same carried state — so no
flag field, diagnostic record, or any other function of the output signals
the `InvalidTarget` rejection. -/
theorem C3_counterexample :
    stepOutput cexC3R = stepOutput cexC3S ∧ hasInvalidTarget cexC3R = true ∧
      hasInvalidTarget cexC3S = false := by
  refine ⟨?_, ?_, ?_⟩ <;>
    norm_num +decide [cexC3R, cexC3S, stepOutput, stepRows, rowFor, summaryFor,
      carriedFor, stepWeight, navFinal, asgFinal, injRun, injectedStocks,
      injResolve, injScan, injNames, lookupD, lookupOpt, cleanChars, removeUS,
      adjustedOf, drift1, List.filterMap, navOld, initAmts, injStep, dictSet,
      hasInvalidTarget, rowActive, repResolve, repScan, isLeadingOf,
      stockReturnPct, bmNavOfDay, mpNavOfDay, strategySum, mpAmountOf, scaled,
      sumVals, dailyReturnOver]

/-- C3 (amended): when an override implies a target weight at or above 1 on
a non-base date, only that instrument's override is rejected — the
instrument keeps its drifted weight — while every other overridden
instrument still reaches its target and every non-overridden instrument is
still diluted by the final NAV; but the rejection produces no observable
signal of any kind (see the counterexample: the output can coincide exactly
with that of a run containing no invalid target). -/
theorem C3_theorem (inp : StepInput) (hnd : inp.stocks.Nodup) :
    (∀ s ∈ inp.stocks, 0 < injResolve inp.dateActiveWeights s →
      ¬ 0 < 1 - targetUsed inp s → stepWeight inp s = adjustedOf inp s) ∧
    (∀ s ∈ inp.stocks, 0 < injResolve inp.dateActiveWeights s →
      0 < 1 - targetUsed inp s → stepWeight inp s = targetUsed inp s) ∧
    (∀ s : String, ¬ 0 < injResolve inp.dateActiveWeights s →
      injectedStocks inp ≠ [] → 0 < navFinal inp →
      stepWeight inp s = adjustedOf inp s / navFinal inp) := by
  refine ⟨?_, ?_, ?_⟩
  · intro s hm hp hv
    rw [stepWeight_injected inp s hnd hm hp, if_neg hv]
  · intro s hm hp hv
    rw [stepWeight_injected inp s hnd hm hp, if_pos hv]
  · intro s hp hne hnav
    rw [(stepWeight_not_injected inp s hp).2, if_neg hne, if_pos hnav]

/-- Concrete mixed date for the C3 witness: `A` carries a valid override
(target `2/10`), `B` carries an invalid one (target `11/10`), `C` carries
none; only `B`'s override is dropped, `A` reaches its target and `C` is
diluted by the final NAV `9/8`. -/
def wC3inp : StepInput :=
  { stocks := ["A", "B", "C"]
    prevStrategy := [("A", 1 / 10), ("B", 4 / 10), ("C", 5 / 10)]
    prevBmWeights := [("A", 1 / 10), ("B", 4 / 10), ("C", 5 / 10)]
    prevPrices := [("A", some 1), ("B", some 1), ("C", some 1)]
    datePrices := [("A", some 1), ("B", some 1), ("C", some 1)]
    basePrices := [("A", some 1), ("B", some 1), ("C", some 1)]
    dateLocalPrices := []
    dateBmWeights := [("A", 1 / 10), ("B", 4 / 10), ("C", 5 / 10)]
    dateActiveWeights := [("A", 1 / 10), ("B", 7 / 10)]
    prevBmNav := some 1
    prevMpNav := some 1 }

/-- C3 witness: the amended theorem applied at `wC3inp` — the invalid
override on `B` is rejected locally while `A`'s override and `C`'s dilution
proceed. -/
theorem C3_witness :
    wC3inp.stocks.Nodup ∧ stepWeight wC3inp "B" = 2 / 5 ∧
      stepWeight wC3inp "A" = 1 / 5 ∧ stepWeight wC3inp "C" = 4 / 9 := by
  have hnd : wC3inp.stocks.Nodup := by decide
  have h := C3_theorem wC3inp hnd
  refine ⟨hnd, ?_, ?_, ?_⟩
  · have hb := h.1 "B" (by decide)
      (by norm_num +decide [wC3inp, injResolve, injScan, lookupD, cleanChars,
        removeUS])
      (by norm_num +decide [wC3inp, targetUsed, injResolve, injScan, lookupD,
        cleanChars, removeUS, adjustedOf, drift1, lookupOpt])
    rw [hb]
    norm_num +decide [wC3inp, adjustedOf, drift1, lookupD, lookupOpt]
  · have ha := h.2.1 "A" (by decide)
      (by norm_num +decide [wC3inp, injResolve, injScan, lookupD, cleanChars,
        removeUS])
      (by norm_num +decide [wC3inp, targetUsed, injResolve, injScan, lookupD,
        cleanChars, removeUS, adjustedOf, drift1, lookupOpt])
    rw [ha]
    norm_num +decide [wC3inp, targetUsed, injResolve, injScan, lookupD,
      cleanChars, removeUS, adjustedOf, drift1, lookupOpt]
  · have hc := h.2.2 "C"
      (by norm_num +decide [wC3inp, injResolve, injScan, lookupD, cleanChars,
        removeUS])
      (by norm_num +decide [wC3inp, injectedStocks, injResolve, injScan,
        lookupD, cleanChars, removeUS, adjustedOf, drift1, lookupOpt,
        List.filterMap])
      (by norm_num +decide [wC3inp, navFinal, injRun, injectedStocks,
        injResolve, injScan, lookupD, cleanChars, removeUS, adjustedOf, drift1,
        lookupOpt, List.filterMap, navOld, initAmts, injStep, dictSet])
    rw [hc]
    norm_num +decide [wC3inp, navFinal, injRun, injectedStocks, injResolve,
      injScan, lookupD, cleanChars, removeUS, adjustedOf, drift1, lookupOpt,
      List.filterMap, navOld, initAmts, injStep, dictSet]

/-- Concrete date with two overrides for C4, stock set enumerated as
`["A", "B", "C"]`: overrides `+1/10` on `A` and `+1/5` on `B`, flat prices,
drifted weights `A: 1/5, B: 3/10, C: 1/2`. -/
def cexC4A : StepInput :=
  { stocks := ["A", "B", "C"]
    prevStrategy := [("A", 1 / 5), ("B", 3 / 10), ("C", 1 / 2)]
    prevBmWeights := [("A", 1 / 5), ("B", 3 / 10), ("C", 1 / 2)]
    prevPrices := [("A", some 1), ("B", some 1), ("C", some 1)]
    datePrices := [("A", some 1), ("B", some 1), ("C", some 1)]
    basePrices := [("A", some 1), ("B", some 1), ("C", some 1)]
    dateLocalPrices := []
    dateBmWeights := [("A", 1 / 5), ("B", 3 / 10), ("C", 1 / 2)]
    dateActiveWeights := [("A", 1 / 10), ("B", 1 / 5)]
    prevBmNav := some 1
    prevMpNav := some 1 }

/-- The same date with the stock set enumerated as `["B", "A", "C"]` — a
different but equally possible iteration order of the same Python set. -/
def cexC4B : StepInput := { cexC4A with stocks := ["B", "A", "C"] }

/-- C4 counterexample: the same portfolio data processed under two
enumeration orders of the same stock set yields different diluted weights
for the non-overridden stock `C` (`35/118` under `A` before `B`, `7/24`
under `B` before `A`), so the output is not the ascending-order result
independently of the engine's internal set order, and two runs agree only if
that unspecified order coincides. -/
theorem C4_counterexample :
    cexC4B = { cexC4A with stocks := ["B", "A", "C"] } ∧
    stepWeight cexC4A "C" = 35 / 118 ∧ stepWeight cexC4B "C" = 7 / 24 ∧
    stepWeight cexC4A "C" ≠ stepWeight cexC4B "C" := by
  refine ⟨rfl, ?_, ?_, ?_⟩ <;>
    norm_num +decide [cexC4A, cexC4B, stepWeight, navFinal, asgFinal, injRun,
      injectedStocks, injResolve, injScan, injNames, lookupD, lookupOpt,
      cleanChars, removeUS, adjustedOf, drift1, List.filterMap, navOld,
      initAmts, injStep, dictSet]

/-- C4 (amended): injections are applied sequentially, each against the NAV
updated by the previous ones, in the engine's in-memory enumeration order of
the overridden set (no sorting is performed); an overridden instrument with
a valid target receives exactly its target weight under every duplicate-free
enumeration of the same stock set, so only the final NAV and with it the
diluted weights depend on the enumeration order. -/
theorem C4_theorem (inp : StepInput) (sigma : List String) (s : String)
    (hnd : inp.stocks.Nodup) (hperm : sigma.Perm inp.stocks)
    (hmem : s ∈ inp.stocks) (hpos : 0 < injResolve inp.dateActiveWeights s)
    (hv : 0 < 1 - targetUsed inp s) :
    stepWeight inp s = targetUsed inp s ∧
      stepWeight { inp with stocks := sigma } s = targetUsed inp s := by
  have hnd2 : sigma.Nodup := hperm.nodup_iff.mpr hnd
  have hmem2 : s ∈ sigma := hperm.mem_iff.mpr hmem
  have hsame : targetUsed { inp with stocks := sigma } s = targetUsed inp s := rfl
  constructor
  · rw [stepWeight_injected inp s hnd hmem hpos, if_pos hv]
  · rw [stepWeight_injected { inp with stocks := sigma } s hnd2 hmem2 hpos,
      hsame, if_pos hv]

/-- C4 witness: the amended theorem applied at `cexC4A` with the enumeration
`["B", "A", "C"]` and the overridden stock `A`. -/
theorem C4_witness :
    cexC4A.stocks.Nodup ∧ (["B", "A", "C"] : List String).Perm cexC4A.stocks ∧
      "A" ∈ cexC4A.stocks ∧ 0 < injResolve cexC4A.dateActiveWeights "A" ∧
      0 < 1 - targetUsed cexC4A "A" ∧
      stepWeight cexC4A "A" = targetUsed cexC4A "A" ∧
      stepWeight { cexC4A with stocks := ["B", "A", "C"] } "A" =
        targetUsed cexC4A "A" := by
  have h1 : cexC4A.stocks.Nodup := by decide
  have h2 : (["B", "A", "C"] : List String).Perm cexC4A.stocks := by
    show (["B", "A", "C"] : List String).Perm ["A", "B", "C"]
    exact List.Perm.swap "A" "B" ["C"]
  have h3 : "A" ∈ cexC4A.stocks := by decide
  have h4 : 0 < injResolve cexC4A.dateActiveWeights "A" := by
    norm_num +decide [cexC4A, injResolve, injScan, lookupD, cleanChars, removeUS]
  have h5 : 0 < 1 - targetUsed cexC4A "A" := by
    norm_num +decide [cexC4A, targetUsed, injResolve, injScan, lookupD,
      cleanChars, removeUS, adjustedOf, drift1, lookupOpt]
  have h := C4_theorem cexC4A ["B", "A", "C"] "A" h1 h2 h3 h4 h5
  exact ⟨h1, h2, h3, h4, h5, h.1, h.2⟩

/-- Concrete no-override date for C6's counterexample: stock `A` has a
positive previous price `1` and a negative current price `-2`. -/
def cexC6 : StepInput :=
  { stocks := ["A"]
    prevStrategy := [("A", 1 / 2)]
    prevBmWeights := [("A", 1)]
    prevPrices := [("A", some 1)]
    datePrices := [("A", some (-2))]
    basePrices := [("A", some 1)]
    dateLocalPrices := []
    dateBmWeights := [("A", 1)]
    dateActiveWeights := []
    prevBmNav := some 1
    prevMpNav := some 1 }

/-- C6 counterexample: stock `A` lacks a valid positive price on the current
day (its price is `-2`), so the claim says it retains its prior weight
`1/2`; the code instead drifts it with the negative ratio to `-1`, because
the current-day check only requires a truthy (nonzero) price. -/
theorem C6_counterexample :
    injectedStocks cexC6 = [] ∧ lookupOpt cexC6.prevPrices "A" = some 1 ∧
      lookupOpt cexC6.datePrices "A" = some (-2) ∧
      lookupD cexC6.prevStrategy "A" 0 = 1 / 2 ∧
      stepWeight cexC6 "A" = -1 ∧ stepWeight cexC6 "A" ≠ 1 / 2 := by
  refine ⟨?_, ?_, ?_, ?_, ?_, ?_⟩ <;>
    norm_num +decide [cexC6, stepWeight, injectedStocks, injResolve, injScan,
      lookupD, lookupOpt, cleanChars, removeUS, adjustedOf, drift1,
      List.filterMap]

/-- C6 (amended): on a non-base date with no applied override, an instrument
drifts by `price_today / price_yesterday` exactly when its previous price is
present and strictly positive and its current price is present and nonzero
(possibly negative); in every other case — a missing or zero price on either
day, or a non-positive previous price — it retains its prior strategy weight
unchanged for that day. -/
theorem C6_theorem (inp : StepInput) (s : String)
    (h : injectedStocks inp = []) :
    (∀ p c : ℚ, lookupOpt inp.prevPrices s = some p →
      lookupOpt inp.datePrices s = some c → 0 < p → c ≠ 0 →
      stepWeight inp s = lookupD inp.prevStrategy s 0 * (c / p)) ∧
    (¬ (∃ p c : ℚ, lookupOpt inp.prevPrices s = some p ∧
        lookupOpt inp.datePrices s = some c ∧ 0 < p ∧ c ≠ 0) →
      stepWeight inp s = lookupD inp.prevStrategy s 0) := by
  have hw : stepWeight inp s = adjustedOf inp s := by simp [stepWeight, h]
  constructor
  · intro p c hp hc h0 hcne
    rw [hw, adjustedOf, hp, hc]
    simp [drift1, h0, hcne]
  · intro hne
    rw [hw, adjustedOf]
    rcases hpp : lookupOpt inp.prevPrices s with _ | p
    · simp [drift1]
    · rcases hcc : lookupOpt inp.datePrices s with _ | c
      · simp [drift1]
      · have : ¬ (0 < p ∧ c ≠ 0) := fun hcon =>
          hne ⟨p, c, hpp, hcc, hcon.1, hcon.2⟩
        simp [drift1, this]

/-- Concrete no-override date for the C6 witness: `A` doubles in price
(`2 → 3` would be a `3/2` ratio; here `2 → 3`), `Z` has no current price. -/
def wC6inp : StepInput :=
  { stocks := ["A", "Z"]
    prevStrategy := [("A", 1 / 2), ("Z", 1 / 4)]
    prevBmWeights := [("A", 1 / 2), ("Z", 1 / 4)]
    prevPrices := [("A", some 2), ("Z", some 5)]
    datePrices := [("A", some 3)]
    basePrices := [("A", some 2), ("Z", some 5)]
    dateLocalPrices := []
    dateBmWeights := [("A", 1 / 2), ("Z", 1 / 4)]
    dateActiveWeights := []
    prevBmNav := some 1
    prevMpNav := some 1 }

/-- C6 witness: the amended theorem applied at `wC6inp` — `A` drifts by
`3/2`, `Z` (missing its current price) keeps its prior weight. -/
theorem C6_witness :
    injectedStocks wC6inp = [] ∧ stepWeight wC6inp "A" = 3 / 4 ∧
      stepWeight wC6inp "Z" = 1 / 4 := by
  have h : injectedStocks wC6inp = [] := by
    norm_num +decide [wC6inp, injectedStocks, injResolve, injScan, lookupD,
      cleanChars, removeUS, List.filterMap]
  refine ⟨h, ?_, ?_⟩
  · have ha := (C6_theorem wC6inp "A" h).1 2 3
      (by norm_num +decide [wC6inp, lookupOpt])
      (by norm_num +decide [wC6inp, lookupOpt]) (by norm_num) (by norm_num)
    rw [ha]
    norm_num +decide [wC6inp, lookupD]
  · have hz := (C6_theorem wC6inp "Z" h).2 ?_
    · rw [hz]
      norm_num +decide [wC6inp, lookupD]
    · rintro ⟨p, c, _, hc, _, _⟩
      rw [show lookupOpt wC6inp.datePrices "Z" = none from by
        norm_num +decide [wC6inp, lookupOpt]] at hc
      cases hc

/-- C7: with at least one applied override and every override target valid
(below 1) and a positive final NAV, every overridden instrument's emitted
weight equals exactly its target and every non-overridden instrument's
emitted weight is its drifted weight divided by the one final NAV; with no
overrides the emitted weights are the drifted weights, unrescaled. -/
theorem C7_theorem (inp : StepInput) (hnd : inp.stocks.Nodup) :
    ((injectedStocks inp ≠ [] ∧ (∀ e ∈ injectedStocks inp, 0 < 1 - e.2.2) ∧
        0 < navFinal inp) →
      ((∀ e ∈ injectedStocks inp, stepWeight inp e.1 = e.2.2) ∧
       (∀ s ∈ inp.stocks, s ∉ injNames inp →
         stepWeight inp s = adjustedOf inp s / navFinal inp))) ∧
    (injectedStocks inp = [] → ∀ s : String, stepWeight inp s = adjustedOf inp s) := by
  constructor
  · rintro ⟨hne, hval, hnav⟩
    constructor
    · intro e he
      obtain ⟨s0, a0, t0⟩ := e
      obtain ⟨h1, h2, _, h4⟩ := (mem_injectedStocks inp s0 a0 t0).mp he
      have hv : 0 < 1 - t0 := hval (s0, a0, t0) he
      rw [stepWeight_injected inp s0 hnd h1 h2, ← h4, if_pos hv]
    · intro s hs hnotin
      have hni : ¬ 0 < injResolve inp.dateActiveWeights s := by
        intro hpos
        exact hnotin (by
          rw [injNames_filter]
          exact List.mem_filter.mpr ⟨hs, by simpa using hpos⟩)
      rw [(stepWeight_not_injected inp s hni).2, if_neg hne, if_pos hnav]
  · intro he s
    simp [stepWeight, he]

/-- Concrete date for the C7 witness: override `+3/10` on `B` with drifted
weights `A: 6/10, B: 4/10`; `B` reaches its target `7/10` and `A` is diluted
by the final NAV `2`. -/
def wC7inp : StepInput :=
  { stocks := ["A", "B"]
    prevStrategy := [("A", 6 / 10), ("B", 4 / 10)]
    prevBmWeights := [("A", 1 / 2), ("B", 1 / 2)]
    prevPrices := [("A", some 1), ("B", some 1)]
    datePrices := [("A", some 1), ("B", some 1)]
    basePrices := [("A", some 1), ("B", some 1)]
    dateLocalPrices := []
    dateBmWeights := [("A", 1 / 2), ("B", 1 / 2)]
    dateActiveWeights := [("B", 3 / 10)]
    prevBmNav := some 1
    prevMpNav := some 1 }

/-- C7 witness: the theorem applied at `wC7inp`. -/
theorem C7_witness :
    wC7inp.stocks.Nodup ∧ stepWeight wC7inp "B" = 7 / 10 ∧
      stepWeight wC7inp "A" = 3 / 10 := by
  have hnd : wC7inp.stocks.Nodup := by decide
  have hinj : injectedStocks wC7inp = [("B", 2 / 5, 7 / 10)] := by
    norm_num +decide [wC7inp, injectedStocks, injResolve, injScan, lookupD,
      cleanChars, removeUS, adjustedOf, drift1, lookupOpt, List.filterMap]
  have hnav : navFinal wC7inp = 2 := by
    norm_num +decide [wC7inp, navFinal, injRun, injectedStocks, injResolve,
      injScan, lookupD, cleanChars, removeUS, adjustedOf, drift1, lookupOpt,
      List.filterMap, navOld, initAmts, injStep, dictSet]
  have hout := (C7_theorem wC7inp hnd).1
    ⟨by rw [hinj]; simp,
     by rw [hinj]; intro e he; simp only [List.mem_singleton] at he
        rw [he]; norm_num,
     by rw [hnav]; norm_num⟩
  refine ⟨hnd, ?_, ?_⟩
  · have hb := hout.1 ("B", 2 / 5, 7 / 10) (by rw [hinj]; simp)
    simpa using hb
  · have hnames : injNames wC7inp = ["B"] := by
      rw [injNames, hinj]
      rfl
    have ha := hout.2 "A" (by decide) (by rw [hnames]; decide)
    rw [ha, hnav]
    norm_num +decide [wC7inp, adjustedOf, drift1, lookupD, lookupOpt]

/-- C10: an instrument whose resolved override delta is zero or negative (at
both the injection and the reporting resolution) is never injected, its
emitted weight follows exactly the non-overridden formula (drifted weight,
then diluted by the final NAV when some other stock was injected), and its
output row reports `active_weight = 0.0`. -/
theorem C10_theorem (inp : StepInput) (s : String)
    (h1 : injResolve inp.dateActiveWeights s ≤ 0)
    (h2 : repResolve inp.dateActiveWeights s ≤ 0) :
    s ∉ injNames inp ∧
      stepWeight inp s =
        (if injectedStocks inp = [] then adjustedOf inp s
         else if 0 < navFinal inp then adjustedOf inp s / navFinal inp
         else adjustedOf inp s) ∧
      (rowFor inp s).activeWeight = 0 := by
  have hni : ¬ 0 < injResolve inp.dateActiveWeights s := not_lt.mpr h1
  obtain ⟨ha, hb⟩ := stepWeight_not_injected inp s hni
  refine ⟨ha, hb, ?_⟩
  simp [rowFor, rowActive, not_lt.mpr h2]

/-- Concrete date for the C10 witness: `A` carries a `-1/10` override, `B`
a `+1/5` one; `A` is treated like a non-overridden stock and diluted by the
final NAV `1`, and its row reports `active_weight = 0`. -/
def wC10inp : StepInput :=
  { stocks := ["A", "B"]
    prevStrategy := [("A", 1 / 2), ("B", 3 / 10)]
    prevBmWeights := [("A", 1 / 2), ("B", 3 / 10)]
    prevPrices := [("A", some 1), ("B", some 1)]
    datePrices := [("A", some 1), ("B", some 1)]
    basePrices := [("A", some 1), ("B", some 1)]
    dateLocalPrices := []
    dateBmWeights := [("A", 1 / 2), ("B", 3 / 10)]
    dateActiveWeights := [("A", -1 / 10), ("B", 1 / 5)]
    prevBmNav := some 1
    prevMpNav := some 1 }

/-- C10 witness: the theorem applied at `wC10inp` and the stock `A`. -/
theorem C10_witness :
    injResolve wC10inp.dateActiveWeights "A" ≤ 0 ∧
      repResolve wC10inp.dateActiveWeights "A" ≤ 0 ∧
      "A" ∉ injNames wC10inp ∧ stepWeight wC10inp "A" = 1 / 2 ∧
      (rowFor wC10inp "A").activeWeight = 0 := by
  have h1 : injResolve wC10inp.dateActiveWeights "A" ≤ 0 := by
    norm_num +decide [wC10inp, injResolve, injScan, lookupD, cleanChars,
      removeUS]
  have h2 : repResolve wC10inp.dateActiveWeights "A" ≤ 0 := by
    norm_num +decide [wC10inp, repResolve, repScan, lookupD, cleanChars,
      removeUS, isLeadingOf]
  have h := C10_theorem wC10inp "A" h1 h2
  refine ⟨h1, h2, h.1, ?_, h.2.2⟩
  rw [h.2.1]
  norm_num +decide [wC10inp, injectedStocks, injResolve, injScan, lookupD,
    cleanChars, removeUS, adjustedOf, drift1, lookupOpt, List.filterMap,
    navFinal, injRun, navOld, initAmts, injStep, dictSet]

/-- The per-candidate predicate of the reporting-site scan: exact equality,
cleaned equality, equality after deleting every `US` occurrence (both
results nonempty), or cleaned-name containment either way. -/
def repMatches (s n : String) : Prop :=
  s = n ∨ cleanChars s = cleanChars n ∨
    (removeUS (cleanChars s) ≠ [] ∧ removeUS (cleanChars n) ≠ [] ∧
      removeUS (cleanChars s) = removeUS (cleanChars n)) ∨
    (isLeadingOf (cleanChars n) (cleanChars s) ∨
      isLeadingOf (cleanChars s) (cleanChars n))

instance (s n : String) : Decidable (repMatches s n) := by
  unfold repMatches
  infer_instance

/-- The per-candidate predicate of the injection-site scan: only cleaned
equality or `US`-deleted equality; no exact shortcut and no containment. -/
def injMatches (s n : String) : Prop :=
  cleanChars s = cleanChars n ∨
    (removeUS (cleanChars s) ≠ [] ∧ removeUS (cleanChars n) ≠ [] ∧
      removeUS (cleanChars s) = removeUS (cleanChars n))

instance (s n : String) : Decidable (injMatches s n) := by
  unfold injMatches
  infer_instance

lemma repScan_eq_find (active : List (String × ℚ)) (s : String) :
    repScan active s =
      (match active.find? (fun e => decide (repMatches s e.1)) with
       | some e => e.2
       | none => 0) := by
  induction active with
  | nil => rfl
  | cons f rest ih =>
    obtain ⟨n, d⟩ := f
    by_cases hm : repMatches s n
    · rw [List.find?_cons, show (decide (repMatches s (n, d).1)) = true from
        decide_eq_true hm]
      show repScan ((n, d) :: rest) s = d
      simp only [repScan]
      split_ifs <;> first
        | rfl
        | (exfalso; rcases hm with h | h | h | h <;> tauto)
    · rw [List.find?_cons, show (decide (repMatches s (n, d).1)) = false from
        decide_eq_false hm]
      have h1 : ¬ s = n := fun h => hm (Or.inl h)
      have h2 : ¬ cleanChars s = cleanChars n := fun h => hm (Or.inr (Or.inl h))
      have h3 : ¬ (removeUS (cleanChars s) ≠ [] ∧ removeUS (cleanChars n) ≠ [] ∧
          removeUS (cleanChars s) = removeUS (cleanChars n)) :=
        fun h => hm (Or.inr (Or.inr (Or.inl h)))
      have h4 : ¬ (isLeadingOf (cleanChars n) (cleanChars s) ∨
          isLeadingOf (cleanChars s) (cleanChars n)) :=
        fun h => hm (Or.inr (Or.inr (Or.inr h)))
      show repScan ((n, d) :: rest) s = _
      simp only [repScan]
      rw [if_neg h1, if_neg h2, if_neg h3, if_neg h4]
      exact ih

lemma injScan_eq_find (active : List (String × ℚ)) (s : String) :
    injScan active s =
      (match active.find? (fun e => decide (injMatches s e.1)) with
       | some e => e.2
       | none => 0) := by
  induction active with
  | nil => rfl
  | cons f rest ih =>
    obtain ⟨n, d⟩ := f
    by_cases hm : injMatches s n
    · rw [List.find?_cons, show (decide (injMatches s (n, d).1)) = true from
        decide_eq_true hm]
      show injScan ((n, d) :: rest) s = d
      simp only [injScan]
      split_ifs <;> first
        | rfl
        | (exfalso; rcases hm with h | h <;> tauto)
    · rw [List.find?_cons, show (decide (injMatches s (n, d).1)) = false from
        decide_eq_false hm]
      have h1 : ¬ cleanChars s = cleanChars n := fun h => hm (Or.inl h)
      have h2 : ¬ (removeUS (cleanChars s) ≠ [] ∧ removeUS (cleanChars n) ≠ [] ∧
          removeUS (cleanChars s) = removeUS (cleanChars n)) :=
        fun h => hm (Or.inr h)
      show injScan ((n, d) :: rest) s = _
      simp only [injScan]
      rw [if_neg h1, if_neg h2]
      exact ih

lemma lookupD_ne_zero_mem (active : List (String × ℚ)) (s : String)
    (h : lookupD active s 0 ≠ 0) : ∃ e ∈ active, e.1 = s := by
  induction active with
  | nil => exact absurd rfl h
  | cons f rest ih =>
    by_cases hf : f.1 = s
    · exact ⟨f, List.mem_cons_self _ _, hf⟩
    · rw [lookupD, if_neg hf] at h
      obtain ⟨e, he, hes⟩ := ih h
      exact ⟨e, List.mem_cons_of_mem _ he, hes⟩

/-- C9 (amended): the reconciliation the code actually performs.  At the
reporting site the scan walks the override entries in dictionary order and
the first entry matching by exact equality, cleaned equality, equality after
deleting every occurrence of the substring `US` (not just a trailing token;
`KS` is never stripped), or cleaned-name containment wins; at the injection
site only cleaned equality and `US`-deletion equality are tried.  The scans
run only when the direct lookup yields zero, and when nothing matches the
override is treated as absent: the resolved delta is `0`. -/
theorem C9_theorem :
    (∀ (active : List (String × ℚ)) (s : String),
      repScan active s =
        (match active.find? (fun e => decide (repMatches s e.1)) with
         | some e => e.2
         | none => 0)) ∧
    (∀ (active : List (String × ℚ)) (s : String),
      injScan active s =
        (match active.find? (fun e => decide (injMatches s e.1)) with
         | some e => e.2
         | none => 0)) ∧
    (∀ (active : List (String × ℚ)) (s : String),
      active.find? (fun e => decide (repMatches s e.1)) = none →
        repResolve active s = 0) := by
  refine ⟨repScan_eq_find, injScan_eq_find, ?_⟩
  intro active s hfind
  have hd : lookupD active s 0 = 0 := by
    by_contra hne
    obtain ⟨e, he, hes⟩ := lookupD_ne_zero_mem active s hne
    have : decide (repMatches s e.1) = true :=
      decide_eq_true (Or.inl hes.symm)
    have := List.find?_eq_none.mp hfind e he
    simp [repMatches, hes] at this
  by_cases hemp : active = []
  · subst hemp
    rfl
  · rw [repResolve]
    simp only [hd, hemp, ne_eq, not_false_iff, and_self, if_true]
    rw [repScan_eq_find, hfind]

/-- C9 counterexample: the spec's four-step reconciler and the code
disagree.  Holding `USB` matches override id `B` in the code (global `US`
deletion) while the spec's algorithm finds no match (no trailing `US` token,
no prefix containment); and the code's two sites disagree with each other on
holding `AB` versus override id `A` (the injection site has no containment
step), which a single first-match-wins algorithm cannot reproduce. -/
theorem C9_counterexample :
    repResolve [("B", 1 / 100)] "USB" = 1 / 100 ∧
      resolveSpec "B" ["USB"] = none ∧
      injResolve [("A", 1 / 100)] "AB" = 0 ∧
      repResolve [("A", 1 / 100)] "AB" = 1 / 100 ∧
      resolveSpec "A" ["AB"] = some "AB" := by
  refine ⟨?_, ?_, ?_, ?_, ?_⟩ <;>
    norm_num +decide [repResolve, repScan, injResolve, injScan, lookupD,
      cleanChars, removeUS, isLeadingOf, resolveSpec, stripTrailingTok,
      upperToks, upperTokAux, List.find?]

/-- The running-sum invariant for one sector: scanning a row list while
carrying an accumulator, every row of the sector states as its cumulative
value the accumulator plus its own daily value. -/
def rowsOk (g : String) : ℚ → List ContribRow → Prop
  | _, [] => True
  | acc, r :: rest =>
    if r.sector = g then
      r.cumulative = acc + r.daily ∧ rowsOk g (acc + r.daily) rest
    else rowsOk g acc rest

/-- The accumulator value after scanning a row list. -/
def accAfter (g : String) : ℚ → List ContribRow → ℚ
  | acc, [] => acc
  | acc, r :: rest =>
    if r.sector = g then accAfter g (acc + r.daily) rest else accAfter g acc rest

lemma sectorDailySum_cons (r : ContribRow) (rows : List ContribRow) (g : String) :
    sectorDailySum (r :: rows) g =
      (if r.sector = g then r.daily else 0) + sectorDailySum rows g := by
  by_cases h : r.sector = g <;> simp [sectorDailySum, List.filter_cons, h]

lemma sectorDailySum_append (a b : List ContribRow) (g : String) :
    sectorDailySum (a ++ b) g = sectorDailySum a g + sectorDailySum b g := by
  simp [sectorDailySum, List.filter_append]

lemma accAfter_eq (g : String) :
    ∀ (rows : List ContribRow) (acc : ℚ),
      accAfter g acc rows = acc + sectorDailySum rows g := by
  intro rows
  induction rows with
  | nil => intro acc; simp [accAfter, sectorDailySum]
  | cons r rest ih =>
    intro acc
    by_cases h : r.sector = g <;>
      · simp [accAfter, h, ih, sectorDailySum_cons]
        try ring

lemma rowsOk_append (g : String) :
    ∀ (a b : List ContribRow) (acc : ℚ),
      rowsOk g acc (a ++ b) ↔ rowsOk g acc a ∧ rowsOk g (accAfter g acc a) b := by
  intro a
  induction a with
  | nil => intro b acc; simp [rowsOk, accAfter]
  | cons r rest ih =>
    intro b acc
    by_cases h : r.sector = g
    · simp [rowsOk, accAfter, h, ih, and_assoc]
    · simp [rowsOk, accAfter, h, ih]

lemma zerosOk (g : String) :
    ∀ keys : List String,
      rowsOk g 0 (keys.map (fun g0 => (⟨g0, 0, 0⟩ : ContribRow))) := by
  intro keys
  induction keys with
  | nil => trivial
  | cons k rest ih =>
    by_cases h : k = g
    · simp only [List.map_cons, rowsOk, h, if_pos]
      exact ⟨by ring, by simpa using ih⟩
    · simpa [rowsOk, h] using ih

lemma zerosDailySum (g : String) :
    ∀ keys : List String,
      sectorDailySum (keys.map (fun g0 => (⟨g0, 0, 0⟩ : ContribRow))) g = 0 := by
  intro keys
  induction keys with
  | nil => rfl
  | cons k rest ih => simp [sectorDailySum_cons, ih]

lemma lookupD_foldl_zero (g : String) :
    ∀ (keys : List String) (m : List (String × ℚ)),
      (∀ h : String, lookupD m h 0 = 0) →
      lookupD (keys.foldl (fun acc g0 => dictSet acc g0 0) m) g 0 = 0 := by
  intro keys
  induction keys with
  | nil => intro m H; exact H g
  | cons k rest ih =>
    intro m H
    rw [List.foldl_cons]
    refine ih _ (fun h => ?_)
    by_cases hk : k = h <;> simp [lookupD_dictSet, hk, H]

lemma lookupD_foldl_set (g : String) (f : String → ℚ) :
    ∀ (keys : List String) (m : List (String × ℚ)), keys.Nodup →
      lookupD (keys.foldl (fun acc g0 => dictSet acc g0 (f g0)) m) g 0 =
        if g ∈ keys then f g else lookupD m g 0 := by
  intro keys
  induction keys with
  | nil => intro m _; simp
  | cons k rest ih =>
    intro m hnd
    obtain ⟨hk, hnd2⟩ := List.nodup_cons.mp hnd
    rw [List.foldl_cons, ih _ hnd2]
    by_cases hg : g ∈ rest
    · simp [hg, List.mem_cons_of_mem k hg]
    · by_cases hkg : k = g
      · subst hkg
        simp [hg, lookupD_dictSet]
      · have hgk : ¬ g = k := fun h => hkg h.symm
        simp [hg, hkg, hgk, lookupD_dictSet, List.mem_cons]

lemma mapRowsNotMemOk (g : String) (D B : String → ℚ) :
    ∀ (keys : List String) (acc : ℚ), g ∉ keys →
      rowsOk g acc
        (keys.map (fun g0 => (⟨g0, D g0, B g0 + D g0⟩ : ContribRow))) := by
  intro keys
  induction keys with
  | nil => intro acc _; trivial
  | cons k rest ih =>
    intro acc hg
    have hkg : ¬ (k = g) := fun h => hg (by simp [h])
    simpa [rowsOk, hkg] using ih acc (fun h => hg (List.mem_cons_of_mem _ h))

lemma mapRowsOk (g : String) (D B : String → ℚ) :
    ∀ keys : List String, keys.Nodup →
      rowsOk g (B g)
        (keys.map (fun g0 => (⟨g0, D g0, B g0 + D g0⟩ : ContribRow))) := by
  intro keys
  induction keys with
  | nil => intro _; trivial
  | cons k rest ih =>
    intro hnd
    obtain ⟨hk, hnd2⟩ := List.nodup_cons.mp hnd
    by_cases hkg : k = g
    · subst hkg
      simp only [List.map_cons, rowsOk, if_pos]
      exact ⟨by trivial, mapRowsNotMemOk k D B rest _ hk⟩
    · simpa [rowsOk, hkg] using ih hnd2

lemma mapDailySum (g : String) (D B : String → ℚ) :
    ∀ keys : List String, keys.Nodup →
      sectorDailySum (keys.map (fun g0 => (⟨g0, D g0, B g0 + D g0⟩ : ContribRow)))
          g = if g ∈ keys then D g else 0 := by
  intro keys
  induction keys with
  | nil => intro _; rfl
  | cons k rest ih =>
    intro hnd
    obtain ⟨hk, hnd2⟩ := List.nodup_cons.mp hnd
    rw [List.map_cons, sectorDailySum_cons, ih hnd2]
    by_cases hkg : k = g
    · subst hkg
      simp [hk]
    · have hgk : ¬ g = k := fun h => hkg h.symm
      simp [hkg, hgk, List.mem_cons]

lemma mem_insertSorted (a b : String) :
    ∀ l : List String, b ∈ insertSorted a l ↔ b = a ∨ b ∈ l := by
  intro l
  induction l with
  | nil => simp [insertSorted]
  | cons c cs ih =>
    cases hb : charListLt a.data c.data <;>
      simp [insertSorted, hb, ih, List.mem_cons] <;> tauto

lemma insertSorted_nodup (a : String) :
    ∀ l : List String, a ∉ l → l.Nodup → (insertSorted a l).Nodup := by
  intro l
  induction l with
  | nil => intro _ _; simp [insertSorted]
  | cons c cs ih =>
    intro ha hnd
    obtain ⟨hc, hnd2⟩ := List.nodup_cons.mp hnd
    cases hb : charListLt a.data c.data
    · simp only [insertSorted, hb, Bool.false_eq_true, if_false]
      rw [List.nodup_cons]
      refine ⟨?_, ih (fun h => ha (List.mem_cons_of_mem _ h)) hnd2⟩
      rw [mem_insertSorted]
      rintro (h | h)
      · exact ha (by simp [← h])
      · exact hc h
    · simp only [insertSorted, hb, if_true]
      exact List.nodup_cons.mpr ⟨ha, hnd⟩

lemma sortedInsertUnique_nodup (a : String) (l : List String) (h : l.Nodup) :
    (sortedInsertUnique a l).Nodup := by
  unfold sortedInsertUnique
  split_ifs with hm
  · exact h
  · exact insertSorted_nodup a l hm h

lemma sectorKeys_nodup : ∀ pairs : List (SRow × SRow), (sectorKeys pairs).Nodup := by
  intro pairs
  induction pairs with
  | nil => simp [sectorKeys]
  | cons p rest ih =>
    simp only [sectorKeys, List.foldr_cons]
    exact sortedInsertUnique_nodup _ _ ih

lemma mem_joined_left (pd cur : List SRow) (e : SRow × SRow)
    (h : e ∈ joinedPairs pd cur) : e.1 ∈ pd := by
  unfold joinedPairs at h
  obtain ⟨pr, hpr, hin⟩ := List.mem_flatMap.mp h
  obtain ⟨cr, _, hcr⟩ := List.mem_filterMap.mp hin
  by_cases hs : cr.stock = pr.stock
  · rw [if_pos hs] at hcr
    obtain ⟨h1, _⟩ := Prod.mk.injEq .. ▸ Option.some.injEq .. ▸ hcr
    exact h1 ▸ hpr
  · rw [if_neg hs] at hcr
    cases hcr

lemma sectorFold_ok (g : String) :
    ∀ (ds : List (List SRow)) (cum : List (String × ℚ)) (pd? : Option (List SRow)),
      (pd? = none → ∀ h : String, lookupD cum h 0 = 0) →
      rowsOk g (lookupD cum g 0) (sectorFold cum pd? ds) := by
  intro ds
  induction ds with
  | nil =>
    intro cum pd? H
    cases pd? <;> simp [sectorFold, rowsOk]
  | cons cur rest ih =>
    intro cum pd? H
    match pd? with
    | none =>
      by_cases hc : cur.filter validRow = []
      · rw [show sectorFold cum none (cur :: rest) = sectorFold cum (some []) rest
            from by simp [sectorFold, hc]]
        exact ih cum (some []) (fun h => nomatch h)
      · rw [show sectorFold cum none (cur :: rest) =
            ((rowSectors (cur.filter validRow)).map (fun g0 => ⟨g0, 0, 0⟩)) ++
              sectorFold ((rowSectors (cur.filter validRow)).foldl
                (fun m g0 => dictSet m g0 0) cum) (some (cur.filter validRow)) rest
            from by simp [sectorFold, hc]]
        rw [rowsOk_append]
        have hacc : lookupD cum g 0 = 0 := H rfl g
        constructor
        · rw [hacc]
          exact zerosOk g _
        · rw [accAfter_eq, hacc, zerosDailySum]
          have h2 : lookupD ((rowSectors (cur.filter validRow)).foldl
              (fun m g0 => dictSet m g0 0) cum) g 0 = 0 :=
            lookupD_foldl_zero g _ cum (H rfl)
          have h3 := ih ((rowSectors (cur.filter validRow)).foldl
            (fun m g0 => dictSet m g0 0) cum) (some (cur.filter validRow))
            (fun h => nomatch h)
          rw [h2] at h3
          simpa using h3
    | some pd =>
      by_cases hc : cur.filter validRow = []
      · rw [show sectorFold cum (some pd) (cur :: rest) = sectorFold cum (some []) rest
            from by simp [sectorFold, hc]]
        exact ih cum (some []) (fun h => nomatch h)
      · by_cases hpd : pd = []
        · rw [show sectorFold cum (some pd) (cur :: rest) =
              sectorFold cum (some (cur.filter validRow)) rest
              from by simp [sectorFold, hc, hpd]]
          exact ih cum (some (cur.filter validRow)) (fun h => nomatch h)
        · rw [show sectorFold cum (some pd) (cur :: rest) =
              ((sectorKeys (joinedPairs pd (cur.filter validRow))).map (fun g0 =>
                ⟨g0, dailyOf pd (cur.filter validRow) g0,
                  lookupD cum g0 0 + dailyOf pd (cur.filter validRow) g0⟩)) ++
                sectorFold ((sectorKeys (joinedPairs pd (cur.filter validRow))).foldl
                  (fun m g0 => dictSet m g0
                    (lookupD cum g0 0 + dailyOf pd (cur.filter validRow) g0)) cum)
                  (some (cur.filter validRow)) rest
              from by simp [sectorFold, hc, hpd]]
          rw [rowsOk_append]
          have hnd := sectorKeys_nodup (joinedPairs pd (cur.filter validRow))
          constructor
          · exact mapRowsOk g (fun g0 => dailyOf pd (cur.filter validRow) g0)
              (fun g0 => lookupD cum g0 0) _ hnd
          · rw [accAfter_eq,
              mapDailySum g (fun g0 => dailyOf pd (cur.filter validRow) g0)
                (fun g0 => lookupD cum g0 0) _ hnd]
            have hl := lookupD_foldl_set g
              (fun g0 => lookupD cum g0 0 + dailyOf pd (cur.filter validRow) g0)
              (sectorKeys (joinedPairs pd (cur.filter validRow))) cum hnd
            have h3 := ih ((sectorKeys (joinedPairs pd (cur.filter validRow))).foldl
              (fun m g0 => dictSet m g0
                (lookupD cum g0 0 + dailyOf pd (cur.filter validRow) g0)) cum)
              (some (cur.filter validRow)) (fun h => nomatch h)
            rw [hl] at h3
            by_cases hg : g ∈ sectorKeys (joinedPairs pd (cur.filter validRow))
            · rw [if_pos hg] at h3
              simpa [hg] using h3
            · rw [if_neg hg] at h3
              simpa [hg] using h3

lemma runSectors_ok (g : String) (base : Option (List SRow))
    (ds : List (List SRow)) : rowsOk g 0 (runSectors base ds) := by
  cases base with
  | none =>
    have h := sectorFold_ok g ds [] none (fun _ h => rfl)
    simpa [runSectors, lookupD] using h
  | some b =>
    by_cases hb : b.filter validRow = []
    · rw [show runSectors (some b) ds = sectorFold [] none ds from by
        simp [runSectors, hb]]
      have h := sectorFold_ok g ds [] none (fun _ h => rfl)
      simpa [lookupD] using h
    · rw [show runSectors (some b) ds =
          sectorFold ((rowSectors (b.filter validRow)).foldl
            (fun m g0 => dictSet m g0 0) []) (some (b.filter validRow)) ds from by
        simp [runSectors, hb]]
      have H0 : lookupD ((rowSectors (b.filter validRow)).foldl
          (fun m g0 => dictSet m g0 0) []) g 0 = 0 :=
        lookupD_foldl_zero g _ [] (fun _ => rfl)
      have h := sectorFold_ok g ds ((rowSectors (b.filter validRow)).foldl
        (fun m g0 => dictSet m g0 0) []) (some (b.filter validRow))
        (fun hcon => nomatch hcon)
      rw [H0] at h
      exact h

/-- C8: in the emitted series every row's cumulative contribution equals the
sum of the daily contributions of its sector emitted up to and including that
row — the running sums start from zero at the window's first date, so the
final cumulative value of a sector is the sum of all its daily contributions
over the window; and each daily sector contribution is the sum over the
sector's merged instruments of the daily return (in percent) times the
previous date's weight. -/
theorem C8_theorem :
    (∀ (base : Option (List SRow)) (ds : List (List SRow))
        (pfx : List ContribRow) (r : ContribRow) (rest2 : List ContribRow),
      runSectors base ds = pfx ++ r :: rest2 →
      r.cumulative = sectorDailySum (pfx ++ [r]) r.sector) ∧
    (∀ (pd cur : List SRow) (g : String),
      dailyOf (pd.filter validRow) cur g =
        (((joinedPairs (pd.filter validRow) cur).filter
            (fun e => decide (e.1.sector = g))).map
          (fun e => (e.2.price.getD 0 / e.1.price.getD 0 - 1) * 100 *
            e.1.weight.getD 0)).sum) := by
  constructor
  · intro base ds pfx r rest2 heq
    have h := runSectors_ok r.sector base ds
    rw [heq, rowsOk_append] at h
    have h2 := h.2
    simp only [rowsOk, if_pos] at h2
    rw [h2.1, accAfter_eq, sectorDailySum_append, sectorDailySum_cons]
    simp [sectorDailySum]
  · intro pd cur g
    unfold dailyOf
    refine congrArg List.sum (List.map_congr_left ?_)
    intro e he
    have he2 : e ∈ joinedPairs (pd.filter validRow) cur :=
      List.mem_of_mem_filter he
    have hleft : e.1 ∈ pd.filter validRow := mem_joined_left _ _ e he2
    have hval : validRow e.1 = true := (List.mem_filter.mp hleft).2
    have hpos : 0 < e.1.price.getD 0 := by
      unfold validRow at hval
      rcases hp : e.1.price with _ | p
      · rw [hp] at hval
        simp at hval
      · rw [hp] at hval
        simp only [Bool.and_eq_true, decide_eq_true_eq] at hval
        simpa [hp] using hval.1
    have hne : e.1.price.getD 0 ≠ 0 := ne_of_gt hpos
    unfold pairContribution
    rw [sub_div, div_self hne]

/-- Concrete window for the C8 witness: a single instrument `s1` in sector
`A`, base-date price 1, weight 1/2; next date price 2.  The one emitted row
carries daily and cumulative contribution `(2-1)/1 * 100 * 1/2 = 50`. -/
def wC8base : List SRow := [⟨"s1", "A", some (1 / 2), some 1⟩]

/-- The later dates of the C8 witness window. -/
def wC8rest : List (List SRow) := [[⟨"s1", "A", some 1, some 2⟩]]

/-- C8 witness: the theorem applied at the concrete window. -/
theorem C8_witness :
    runSectors (some wC8base) wC8rest = [(⟨"A", 50, 50⟩ : ContribRow)] ∧
      (⟨"A", 50, 50⟩ : ContribRow).cumulative =
        sectorDailySum ([] ++ [(⟨"A", 50, 50⟩ : ContribRow)])
          (⟨"A", 50, 50⟩ : ContribRow).sector := by
  have h1 : runSectors (some wC8base) wC8rest = [(⟨"A", 50, 50⟩ : ContribRow)] := by
    norm_num +decide [wC8base, wC8rest, runSectors, sectorFold, validRow,
      rowSectors, seenInsert, sectorKeys, sortedInsertUnique, insertSorted,
      charListLt, joinedPairs, dailyOf, pairContribution, lookupD, dictSet,
      List.filterMap, List.flatMap]
  exact ⟨h1, C8_theorem.1 (some wC8base) wC8rest [] _ [] (by simpa using h1)⟩

/-- C9 witness: the no-match clause of the amended theorem applied to a
holding `ZZZ` that matches no override entry — the resolved delta is 0. -/
theorem C9_witness :
    ([(("Q" : String), (1 : ℚ) / 5)].find?
        (fun e => decide (repMatches "ZZZ" e.1)) = none) ∧
      repResolve [("Q", 1 / 5)] "ZZZ" = 0 := by
  have hf : ([(("Q" : String), (1 : ℚ) / 5)].find?
      (fun e => decide (repMatches "ZZZ" e.1)) = none) := by
    norm_num +decide [repMatches, cleanChars, removeUS, isLeadingOf, List.find?]
  exact ⟨hf, C9_theorem.2.2 _ "ZZZ" hf⟩
